import Mathlib

/-!
Verification of the CTLungSeg segmentation core (src/CTLungSeg/segmentation.py)
against its natural-language specification.

The Python functions are shallowly embedded as executable Lean definitions:
volumes are lists of slices, slices are lists of natural-number gray levels,
pandas stats tables are lists of (row index, region row) pairs, and numpy
label maps are functions from a finite pixel type to natural numbers.
Fallible behaviour (pandas KeyError, numpy reshape and indexing errors)
is embedded with Option.
-/

namespace CTLungSeg

/-! ## Region stats tables and find_ROI -/

/-- One row of a connected-component stats table: the bounding box
columns LEFT, TOP, WIDTH, HEIGHT and the pixel count AREA. -/
structure RegionRow where
  LEFT : Nat
  TOP : Nat
  WIDTH : Nat
  HEIGHT : Nat
  AREA : Nat
deriving DecidableEq

/-- A stats table: rows keyed by the pandas index (the region id). -/
abbrev StatsTable := List (Nat × RegionRow)

/-- numpy astype(int16): wrap an integer into the signed 16-bit range. -/
def int16 (n : Int) : Int := (n + 2 ^ 15) % 2 ^ 16 - 2 ^ 15

/-- Embeds find_ROI: drop the row with index 0 (pandas KeyError, hence
none, when no such row exists), then return
[min LEFT, min TOP, max (LEFT+WIDTH), max (TOP+HEIGHT)] over the remaining
rows as int16 values; with no remaining rows the NaN reductions are mapped
to 0 by nan_to_num. -/
def find_ROI (stats : StatsTable) : Option (List Int) :=
  if stats.any (fun r => r.1 = 0) then
    match stats.filter (fun r => r.1 ≠ 0) with
    | [] => some [0, 0, 0, 0]
    | r :: rs =>
      some [int16 (rs.foldl (fun a e => min a (e.2.LEFT : Int)) (r.2.LEFT : Int)),
            int16 (rs.foldl (fun a e => min a (e.2.TOP : Int)) (r.2.TOP : Int)),
            int16 (rs.foldl (fun a e => max a ((e.2.LEFT + e.2.WIDTH : Nat) : Int))
              ((r.2.LEFT + r.2.WIDTH : Nat) : Int)),
            int16 (rs.foldl (fun a e => max a ((e.2.TOP + e.2.HEIGHT : Nat) : Int))
              ((r.2.TOP + r.2.HEIGHT : Nat) : Int))]
  else none

theorem foldlMin_le_init {α : Type} (f : α → Int) (l : List α) (init : Int) :
    l.foldl (fun a e => min a (f e)) init ≤ init := by
  induction l generalizing init with
  | nil => exact le_refl _
  | cons x xs ih => exact le_trans (ih (min init (f x))) (min_le_left _ _)

theorem foldlMin_le {α : Type} (f : α → Int) (l : List α) (init : Int) :
    ∀ e ∈ l, l.foldl (fun a e => min a (f e)) init ≤ f e := by
  induction l generalizing init with
  | nil => intro e he; cases he
  | cons x xs ih =>
    intro e he
    rcases List.mem_cons.mp he with he | he
    · subst he
      exact le_trans (foldlMin_le_init f xs (min init (f e))) (min_le_right _ _)
    · exact ih (min init (f x)) e he

theorem foldlMin_eq {α : Type} (f : α → Int) (l : List α) (init : Int) :
    l.foldl (fun a e => min a (f e)) init = init ∨
      ∃ e ∈ l, l.foldl (fun a e => min a (f e)) init = f e := by
  induction l generalizing init with
  | nil => exact Or.inl rfl
  | cons x xs ih =>
    rcases ih (min init (f x)) with h | ⟨e, he, h⟩
    · rcases min_choice init (f x) with hm | hm
      · exact Or.inl (by rw [List.foldl_cons, h, hm])
      · exact Or.inr ⟨x, List.mem_cons_self _ _, by rw [List.foldl_cons, h, hm]⟩
    · exact Or.inr ⟨e, List.mem_cons_of_mem _ he, h⟩

theorem le_foldlMax_init {α : Type} (f : α → Int) (l : List α) (init : Int) :
    init ≤ l.foldl (fun a e => max a (f e)) init := by
  induction l generalizing init with
  | nil => exact le_refl _
  | cons x xs ih => exact le_trans (le_max_left _ _) (ih (max init (f x)))

theorem le_foldlMax {α : Type} (f : α → Int) (l : List α) (init : Int) :
    ∀ e ∈ l, f e ≤ l.foldl (fun a e => max a (f e)) init := by
  induction l generalizing init with
  | nil => intro e he; cases he
  | cons x xs ih =>
    intro e he
    rcases List.mem_cons.mp he with he | he
    · subst he
      exact le_trans (le_max_right _ _) (le_foldlMax_init f xs (max init (f e)))
    · exact ih (max init (f x)) e he

theorem foldlMax_eq {α : Type} (f : α → Int) (l : List α) (init : Int) :
    l.foldl (fun a e => max a (f e)) init = init ∨
      ∃ e ∈ l, l.foldl (fun a e => max a (f e)) init = f e := by
  induction l generalizing init with
  | nil => exact Or.inl rfl
  | cons x xs ih =>
    rcases ih (max init (f x)) with h | ⟨e, he, h⟩
    · rcases max_choice init (f x) with hm | hm
      · exact Or.inl (by rw [List.foldl_cons, h, hm])
      · exact Or.inr ⟨x, List.mem_cons_self _ _, by rw [List.foldl_cons, h, hm]⟩
    · exact Or.inr ⟨e, List.mem_cons_of_mem _ he, h⟩

theorem int16_eq_self (n : Int) (h0 : 0 ≤ n) (h : n < 2 ^ 15) : int16 n = n := by
  unfold int16
  rw [Int.emod_eq_of_lt (by omega) (by norm_num; omega)]
  omega

theorem foldlMin_spec {α : Type} (f : α → Int) (r : α) (rs : List α) :
    (∀ e ∈ r :: rs, rs.foldl (fun a e => min a (f e)) (f r) ≤ f e) ∧
      ∃ e ∈ r :: rs, rs.foldl (fun a e => min a (f e)) (f r) = f e := by
  constructor
  · intro e he
    rcases List.mem_cons.mp he with he | he
    · subst he; exact foldlMin_le_init f rs (f e)
    · exact foldlMin_le f rs (f r) e he
  · rcases foldlMin_eq f rs (f r) with h | ⟨e, he, h⟩
    · exact ⟨r, List.mem_cons_self _ _, h⟩
    · exact ⟨e, List.mem_cons_of_mem _ he, h⟩

theorem foldlMax_spec {α : Type} (f : α → Int) (r : α) (rs : List α) :
    (∀ e ∈ r :: rs, f e ≤ rs.foldl (fun a e => max a (f e)) (f r)) ∧
      ∃ e ∈ r :: rs, rs.foldl (fun a e => max a (f e)) (f r) = f e := by
  constructor
  · intro e he
    rcases List.mem_cons.mp he with he | he
    · subst he; exact le_foldlMax_init f rs (f e)
    · exact le_foldlMax f rs (f r) e he
  · rcases foldlMax_eq f rs (f r) with h | ⟨e, he, h⟩
    · exact ⟨r, List.mem_cons_self _ _, h⟩
    · exact ⟨e, List.mem_cons_of_mem _ he, h⟩

theorem mem_filter_ne_zero (stats : StatsTable) (r : Nat × RegionRow) :
    r ∈ stats.filter (fun e => e.1 ≠ 0) ↔ r ∈ stats ∧ r.1 ≠ 0 := by
  simp [List.mem_filter]

/-- C5: for a stats table that still has its background row, find_ROI returns
the componentwise min of LEFT and TOP and max of LEFT+WIDTH and TOP+HEIGHT
over the foreground rows (each bound attained by some row), as signed
integers; with no foreground rows it returns [0, 0, 0, 0]. -/
theorem find_ROI_correct (stats : StatsTable)
    (h0 : stats.any (fun r => r.1 = 0) = true)
    (hbound : ∀ r ∈ stats, r.2.LEFT + r.2.WIDTH < 2 ^ 15 ∧ r.2.TOP + r.2.HEIGHT < 2 ^ 15) :
    ((∃ r ∈ stats, r.1 ≠ 0) →
      ∃ a b c d, find_ROI stats = some [a, b, c, d] ∧
        (∀ r ∈ stats, r.1 ≠ 0 →
          a ≤ (r.2.LEFT : Int) ∧ b ≤ (r.2.TOP : Int) ∧
          ((r.2.LEFT : Int) + r.2.WIDTH) ≤ c ∧ ((r.2.TOP : Int) + r.2.HEIGHT) ≤ d) ∧
        (∃ r ∈ stats, r.1 ≠ 0 ∧ a = (r.2.LEFT : Int)) ∧
        (∃ r ∈ stats, r.1 ≠ 0 ∧ b = (r.2.TOP : Int)) ∧
        (∃ r ∈ stats, r.1 ≠ 0 ∧ c = ((r.2.LEFT : Int) + r.2.WIDTH)) ∧
        (∃ r ∈ stats, r.1 ≠ 0 ∧ d = ((r.2.TOP : Int) + r.2.HEIGHT))) ∧
    ((∀ r ∈ stats, r.1 = 0) → find_ROI stats = some [0, 0, 0, 0]) := by
  constructor
  · intro ⟨rfg, hrfg, hrfg0⟩
    have hmem : rfg ∈ stats.filter (fun e => e.1 ≠ 0) :=
      (mem_filter_ne_zero stats rfg).mpr ⟨hrfg, hrfg0⟩
    rcases hrest : stats.filter (fun e => e.1 ≠ 0) with _ | ⟨r, rs⟩
    · rw [hrest] at hmem; cases hmem
    have hsub : ∀ e ∈ r :: rs, e ∈ stats ∧ e.1 ≠ 0 := by
      intro e he
      exact (mem_filter_ne_zero stats e).mp (hrest ▸ he)
    have hval : find_ROI stats =
        some [int16 (rs.foldl (fun a e => min a (e.2.LEFT : Int)) (r.2.LEFT : Int)),
              int16 (rs.foldl (fun a e => min a (e.2.TOP : Int)) (r.2.TOP : Int)),
              int16 (rs.foldl (fun a e => max a ((e.2.LEFT + e.2.WIDTH : Nat) : Int))
                ((r.2.LEFT + r.2.WIDTH : Nat) : Int)),
              int16 (rs.foldl (fun a e => max a ((e.2.TOP + e.2.HEIGHT : Nat) : Int))
                ((r.2.TOP + r.2.HEIGHT : Nat) : Int))] := by
      unfold find_ROI
      rw [h0]
      rw [hrest]
      rfl
    obtain ⟨hminL, eL, heL, heLv⟩ := foldlMin_spec (fun e => (e.2.LEFT : Int)) r rs
    obtain ⟨hminT, eT, heT, heTv⟩ := foldlMin_spec (fun e => (e.2.TOP : Int)) r rs
    obtain ⟨hmaxR, eR, heR, heRv⟩ :=
      foldlMax_spec (fun e => ((e.2.LEFT + e.2.WIDTH : Nat) : Int)) r rs
    obtain ⟨hmaxB, eB, heB, heBv⟩ :=
      foldlMax_spec (fun e => ((e.2.TOP + e.2.HEIGHT : Nat) : Int)) r rs
    have hL16 : int16 (rs.foldl (fun a e => min a (e.2.LEFT : Int)) (r.2.LEFT : Int)) =
        rs.foldl (fun a e => min a (e.2.LEFT : Int)) (r.2.LEFT : Int) := by
      apply int16_eq_self _ (heLv ▸ Int.ofNat_nonneg _)
      rw [heLv]
      have := (hbound eL (hsub eL heL).1).1
      exact_mod_cast lt_of_le_of_lt (Nat.cast_le.mpr (Nat.le_add_right _ _)) (by exact_mod_cast this)
    have hT16 : int16 (rs.foldl (fun a e => min a (e.2.TOP : Int)) (r.2.TOP : Int)) =
        rs.foldl (fun a e => min a (e.2.TOP : Int)) (r.2.TOP : Int) := by
      apply int16_eq_self _ (heTv ▸ Int.ofNat_nonneg _)
      rw [heTv]
      have := (hbound eT (hsub eT heT).1).2
      exact_mod_cast lt_of_le_of_lt (Nat.cast_le.mpr (Nat.le_add_right _ _)) (by exact_mod_cast this)
    have hR16 : int16 (rs.foldl (fun a e => max a ((e.2.LEFT + e.2.WIDTH : Nat) : Int))
        ((r.2.LEFT + r.2.WIDTH : Nat) : Int)) =
        rs.foldl (fun a e => max a ((e.2.LEFT + e.2.WIDTH : Nat) : Int))
          ((r.2.LEFT + r.2.WIDTH : Nat) : Int) := by
      apply int16_eq_self _ (heRv ▸ Int.ofNat_nonneg _)
      rw [heRv]
      exact_mod_cast (hbound eR (hsub eR heR).1).1
    have hB16 : int16 (rs.foldl (fun a e => max a ((e.2.TOP + e.2.HEIGHT : Nat) : Int))
        ((r.2.TOP + r.2.HEIGHT : Nat) : Int)) =
        rs.foldl (fun a e => max a ((e.2.TOP + e.2.HEIGHT : Nat) : Int))
          ((r.2.TOP + r.2.HEIGHT : Nat) : Int) := by
      apply int16_eq_self _ (heBv ▸ Int.ofNat_nonneg _)
      rw [heBv]
      exact_mod_cast (hbound eB (hsub eB heB).1).2
    refine ⟨_, _, _, _, by rw [hval, hL16, hT16, hR16, hB16], ?_, ?_, ?_, ?_, ?_⟩
    · intro q hq hq0
      have hqmem : q ∈ r :: rs := hrest ▸ (mem_filter_ne_zero stats q).mpr ⟨hq, hq0⟩
      refine ⟨hminL q hqmem, hminT q hqmem, ?_, ?_⟩
      · exact_mod_cast hmaxR q hqmem
      · exact_mod_cast hmaxB q hqmem
    · exact ⟨eL, (hsub eL heL).1, (hsub eL heL).2, heLv⟩
    · exact ⟨eT, (hsub eT heT).1, (hsub eT heT).2, heTv⟩
    · exact ⟨eR, (hsub eR heR).1, (hsub eR heR).2, by exact_mod_cast heRv⟩
    · exact ⟨eB, (hsub eB heB).1, (hsub eB heB).2, by exact_mod_cast heBv⟩
  · intro hall
    have hrest : stats.filter (fun e => e.1 ≠ 0) = [] := by
      rw [List.filter_eq_nil_iff]
      intro e he
      simp [hall e he]
    unfold find_ROI
    rw [h0, hrest]
    rfl

/-- Witness for C5: the stats table with background row 0 and the single
foreground region LEFT 2, TOP 3, WIDTH 4, HEIGHT 5 satisfies the hypotheses,
and find_ROI on it returns [2, 3, 6, 8]. -/
theorem find_ROI_correct_witness :
    ([(0, RegionRow.mk 0 0 10 10 80), (1, RegionRow.mk 2 3 4 5 20)] : StatsTable).any
        (fun r => r.1 = 0) = true ∧
    (∀ r ∈ ([(0, RegionRow.mk 0 0 10 10 80), (1, RegionRow.mk 2 3 4 5 20)] : StatsTable),
      r.2.LEFT + r.2.WIDTH < 2 ^ 15 ∧ r.2.TOP + r.2.HEIGHT < 2 ^ 15) ∧
    find_ROI [(0, RegionRow.mk 0 0 10 10 80), (1, RegionRow.mk 2 3 4 5 20)] =
      some [2, 3, 6, 8] ∧
    ((∃ r ∈ ([(0, RegionRow.mk 0 0 10 10 80), (1, RegionRow.mk 2 3 4 5 20)] : StatsTable),
        r.1 ≠ 0) →
      ∃ a b c d,
        find_ROI [(0, RegionRow.mk 0 0 10 10 80), (1, RegionRow.mk 2 3 4 5 20)] =
          some [a, b, c, d] ∧
        (∀ r ∈ ([(0, RegionRow.mk 0 0 10 10 80), (1, RegionRow.mk 2 3 4 5 20)] : StatsTable),
          r.1 ≠ 0 →
          a ≤ (r.2.LEFT : Int) ∧ b ≤ (r.2.TOP : Int) ∧
          ((r.2.LEFT : Int) + r.2.WIDTH) ≤ c ∧ ((r.2.TOP : Int) + r.2.HEIGHT) ≤ d) ∧
        (∃ r ∈ ([(0, RegionRow.mk 0 0 10 10 80), (1, RegionRow.mk 2 3 4 5 20)] : StatsTable),
          r.1 ≠ 0 ∧ a = (r.2.LEFT : Int)) ∧
        (∃ r ∈ ([(0, RegionRow.mk 0 0 10 10 80), (1, RegionRow.mk 2 3 4 5 20)] : StatsTable),
          r.1 ≠ 0 ∧ b = (r.2.TOP : Int)) ∧
        (∃ r ∈ ([(0, RegionRow.mk 0 0 10 10 80), (1, RegionRow.mk 2 3 4 5 20)] : StatsTable),
          r.1 ≠ 0 ∧ c = ((r.2.LEFT : Int) + r.2.WIDTH)) ∧
        (∃ r ∈ ([(0, RegionRow.mk 0 0 10 10 80), (1, RegionRow.mk 2 3 4 5 20)] : StatsTable),
          r.1 ≠ 0 ∧ d = ((r.2.TOP : Int) + r.2.HEIGHT))) :=
  ⟨by decide, by decide, by decide,
    (find_ROI_correct [(0, RegionRow.mk 0 0 10 10 80), (1, RegionRow.mk 2 3 4 5 20)]
      (by decide) (by decide)).1⟩

/-- C10: find_ROI unconditionally drops the row indexed 0; on a stats table
with no row indexed 0 the call fails (pandas KeyError) instead of reducing
over the rows that are present. -/
theorem find_ROI_no_background_fails (stats : StatsTable)
    (h : ∀ r ∈ stats, r.1 ≠ 0) : find_ROI stats = none := by
  unfold find_ROI
  have hany : stats.any (fun r => r.1 = 0) = false := by
    rw [List.any_eq_false]
    intro r hr
    simpa using h r hr
  rw [hany]
  rfl

/-- Witness for C10: a one-row table whose only row is indexed 1 has no
background row, and find_ROI fails on it. -/
theorem find_ROI_no_background_fails_witness :
    (∀ r ∈ ([(1, RegionRow.mk 2 3 4 5 20)] : StatsTable), r.1 ≠ 0) ∧
      find_ROI [(1, RegionRow.mk 2 3 4 5 20)] = none :=
  ⟨by decide, find_ROI_no_background_fails [(1, RegionRow.mk 2 3 4 5 20)] (by decide)⟩

/-! ## Bit planes and bit_plane_slices -/

/-- Python sequence indexing: a negative index counts from the end, an index
out of the range -len .. len-1 raises IndexError (none). -/
def pyIndex {α : Type} (l : List α) (i : Int) : Option α :=
  if 0 ≤ i then l.get? i.toNat
  else if 0 ≤ (l.length : Int) + i then l.get? ((l.length : Int) + i).toNat
  else none

/-- Modelled from the spec: gl2bit (CTLungSeg.method, not in src) decomposes
an 8-bit volume into its 8 binary planes, ordered from the most-significant
bit to the least-significant bit (spec section 6, Bit Decomposition).
Plane k holds bit 7 - k of every voxel. The volume is flattened to a list
of voxel gray levels. -/
def gl2bit (stack : List Nat) : List (List Nat) :=
  (List.range 8).map (fun k => stack.map (fun v => if v.testBit (7 - k) then 1 else 0))

/-- Embeds bit_plane_slices: select planes binary[8 - b] for each b in bits
(Python indexing, so this can wrap around or raise IndexError), then weight
by significance 2^(b-1) reshaped to (3, 1, 1, 1) - a reshape that fails
unless bits has exactly three entries - and sum per voxel into uint8. -/
def mapOpt {α β : Type} (f : α → Option β) : List α → Option (List β)
  | [] => some []
  | x :: xs =>
    match f x, mapOpt f xs with
    | some y, some ys => some (y :: ys)
    | _, _ => none

def bit_plane_slices (stack : List Nat) (bits : List Int) : Option (List Nat) :=
  match mapOpt (fun b => pyIndex (gl2bit stack) (8 - b)) bits with
  | none => none
  | some selection =>
    if bits.length = 3 then
      some ((List.range stack.length).map (fun x =>
        ((selection.zip bits).foldr
          (fun sb acc => sb.1.getD x 0 * 2 ^ (sb.2 - 1).toNat + acc) 0) % 256))
    else none

/-- C3: contrary to the claim, bit_plane_slices cannot return the
most-significant bit plane for bits = (8,): the significance array is
reshaped to (3, 1, 1, 1), which fails for a single selected bit, so the
call raises instead of producing output - for every input stack. -/
theorem bit_plane_slices_msb_only_fails (stack : List Nat) :
    bit_plane_slices stack [8] = none := by
  rfl

theorem mapOpt_eq_none_of_mem {α β : Type} (l : List α) (f : α → Option β) (a : α)
    (ha : a ∈ l) (hf : f a = none) : mapOpt f l = none := by
  induction l with
  | nil => cases ha
  | cons x xs ih =>
    rcases List.mem_cons.mp ha with h | h
    · subst h
      unfold mapOpt
      rw [hf]
    · unfold mapOpt
      rw [ih h]
      cases f x <;> rfl

/-- A bit position of 0 sends Python to plane index 8, one past the last of
the 8 planes, so the whole call fails with IndexError. -/
theorem bit_plane_slices_bit_zero_fails (stack : List Nat) (bits : List Int)
    (h : (0 : Int) ∈ bits) : bit_plane_slices stack bits = none := by
  unfold bit_plane_slices
  rw [mapOpt_eq_none_of_mem bits _ 0 h]
  have hlen : (gl2bit stack).length = 8 := by
    unfold gl2bit
    rw [List.length_map, List.length_range]
  unfold pyIndex
  rw [if_pos (by norm_num)]
  rw [List.get?_eq_none]
  rw [hlen]
  norm_num

/-! ## Label maps and the component analyzer contract

connected_components_wStats (CTLungSeg.method, not in src) is the external
Component Analyzer of spec section 6: per slice it yields a label map
assigning region id 0 exclusively to background and a stats table whose
AREA column is exactly the pixel count of each region id. A slice is a
finite pixel type P; a label map is a function P to Nat. remove_spots and
select_greater_connected_regions only consume that output, so they are
embedded as functions of the label map, and the analyzer contract is the
isCompLab hypothesis below. -/

/-- A step between two foreground pixels that are adjacent; adj is the
(unspecified) pixel adjacency of the external analyzer. -/
def fgStep {α : Type} (adj : α → α → Prop) (fg : α → Prop) (a b : α) : Prop :=
  fg a ∧ fg b ∧ adj a b

/-- Connectivity inside the foreground: a chain of adjacent foreground
pixels. -/
def conn {α : Type} (adj : α → α → Prop) (fg : α → Prop) : α → α → Prop :=
  Relation.ReflTransGen (fgStep adj fg)

/-- Modelled from the spec: the Component Analyzer contract (spec section 6)
for one slice. L is a component labeling of the foreground fg: label 0 is
assigned exclusively to background, and two foreground pixels carry the
same label exactly when they are connected inside the foreground. -/
def isCompLab {α : Type} (adj : α → α → Prop) (fg : α → Prop) (L : α → Nat) : Prop :=
  (∀ p, L p ≠ 0 ↔ fg p) ∧
    ∀ p q, fg p → fg q → (L p = L q ↔ conn adj fg p q)

/-- AREA of region id j in label map L: the number of pixels labeled j
(spec section 6: AREA exactly equals the pixel count of each region).
A slice is the finite pixel grid Fin n. -/
def areaOf {n : Nat} (L : Fin n → Nat) (j : Nat) : Nat :=
  ((List.finRange n).filter (fun p => L p = j)).length

/-- The index column of the full stats table: every region id present in
the label map, background id 0 included. -/
def allIds {n : Nat} (L : Fin n → Nat) : List Nat :=
  ((List.finRange n).map L).dedup

/-- Embeds the remove_spots loop body for one slice: zero the label of every
stats row whose AREA is below the threshold (the query AREA < area ranges
over all rows of the stats table, background included), then binarize the
label map with lab != 0 into uint8 0/1. -/
def remove_spots_slice {n : Nat} (L : Fin n → Nat) (area : Int) : Fin n → Nat :=
  fun p =>
    let lab1 := if L p ∈ (allIds L).filter
        (fun j => (areaOf L j : Int) < area) then 0 else L p
    if lab1 ≠ 0 then 1 else 0

/-- Embeds remove_spots: the per-slice removal applied to every slice of the
stack of label maps produced by the analyzer. -/
def remove_spots {n : Nat} (Ls : List (Fin n → Nat)) (area : Int) :
    List (Fin n → Nat) :=
  Ls.map (fun L => remove_spots_slice L area)

/-- The pandas index of the stats table after drop(index = 0): the region
ids present in the label map, without the background id 0. -/
def idsList {n : Nat} (L : Fin n → Nat) : List Nat :=
  (allIds L).filter (fun j => j ≠ 0)

/-- Insert one id into a list kept in descending key order. -/
def insertDesc (key : Nat → Nat) (a : Nat) : List Nat → List Nat
  | [] => [a]
  | b :: bs => if key b < key a then a :: b :: bs else b :: insertDesc key a bs

/-- Sort ids by descending key (the embedding of sort_values by AREA with
ascending = False; the tie order of the pandas quicksort is unspecified, any
deterministic order is a faithful model). -/
def sortDesc (key : Nat → Nat) : List Nat → List Nat
  | [] => []
  | x :: xs => insertDesc key x (sortDesc key xs)

/-- The stats table of select_greater_connected_regions after dropping the
background row and sorting by AREA descending: its index column. -/
def sortedIds {n : Nat} (L : Fin n → Nat) : List Nat :=
  sortDesc (areaOf L) (idsList L)

/-- The AREA values stat.iat[i, 4] read by the selection loop: the areas of
the first k rows of the sorted table. -/
def topAreas {n : Nat} (L : Fin n → Nat) (k : Nat) : List Nat :=
  ((sortedIds L).take k).map (areaOf L)

/-- Embeds select_greater_connected_regions for one slice. If the table
(background dropped) still has more than n_reg - 1 rows, the loop queries,
for each of the first n_reg sorted rows, all ids of equal AREA; numpy can
only process a one-element query index (np.uint8(index) of a longer index
makes lab == ... an invalid broadcast), so a longer query is an error
(none). Every queried id (taken mod 256 by np.uint8) is painted 255, then
everything not 255 is cleared. Otherwise the slice is fully cleared. -/
def select_greater_slice {n : Nat} (L : Fin n → Nat) (n_reg : Int) :
    Option (Fin n → Nat) :=
  if ((sortedIds L).length : Int) > n_reg - 1 then
    if ∀ a ∈ topAreas L n_reg.toNat,
        ((sortedIds L).filter (fun j => areaOf L j = a)).length = 1 then
      some (fun p =>
        let lab1 := if ((sortedIds L).filter
            (fun j => areaOf L j ∈ topAreas L n_reg.toNat)).any
            (fun j => L p = j % 256) then 255 else L p
        if lab1 ≠ 255 then 0 else lab1)
    else none
  else some (fun p => if L p ≠ 0 then 0 else L p)

/-- Embeds select_greater_connected_regions: the per-slice selection mapped
over the stack of label maps produced by the analyzer. -/
def select_greater_connected_regions {n : Nat} (Ls : List (Fin n → Nat)) (n_reg : Int) :
    Option (List (Fin n → Nat)) :=
  mapOpt (fun L => select_greater_slice L n_reg) Ls

theorem conn_mono {α : Type} (adj : α → α → Prop) (fg fg2 : α → Prop)
    (hsub : ∀ p, fg p → fg2 p) {a b : α} (h : conn adj fg a b) :
    conn adj fg2 a b :=
  Relation.ReflTransGen.mono
    (fun x y hxy => ⟨hsub x hxy.1, hsub y hxy.2.1, hxy.2.2⟩) h

theorem conn_endpoints {α : Type} (adj : α → α → Prop) (fg : α → Prop)
    {a b : α} (h : conn adj fg a b) : a = b ∨ (fg a ∧ fg b) := by
  induction h with
  | refl => exact Or.inl rfl
  | tail hab hbc ih =>
    rcases ih with h | h
    · exact Or.inr ⟨h ▸ hbc.1, hbc.2.1⟩
    · exact Or.inr ⟨h.1, hbc.2.1⟩

/-- Through a component labeling, every pixel connected (inside the full
foreground) to a pixel of a surviving region itself survives, and the
connecting path can be taken entirely inside the survivors. -/
theorem conn_survivors {n : Nat} (adj : Fin n → Fin n → Prop) (fg : Fin n → Prop)
    (L : Fin n → Nat) (hL : isCompLab adj fg L) (area : Int) (p : Fin n)
    (hp : fg p) (hparea : area ≤ (areaOf L (L p) : Int)) :
    ∀ q, conn adj fg q p →
      (fg q ∧ area ≤ (areaOf L (L q) : Int)) ∧
        conn adj (fun r => fg r ∧ area ≤ (areaOf L (L r) : Int)) q p := by
  intro q hq
  induction hq using Relation.ReflTransGen.head_induction_on with
  | refl => exact ⟨⟨hp, hparea⟩, Relation.ReflTransGen.refl⟩
  | @head a c hstep htail ih =>
    obtain ⟨⟨hfgc, hareac⟩, hconnc⟩ := ih
    have hfga := hstep.1
    have hconnap : conn adj fg a p := Relation.ReflTransGen.head hstep htail
    have hLa : L a = L p := (hL.2 a p hfga hp).mpr hconnap
    have hareaa : area ≤ (areaOf L (L a) : Int) := by rw [hLa]; exact hparea
    exact ⟨⟨hfga, hareaa⟩,
      Relation.ReflTransGen.head ⟨⟨hfga, hareaa⟩, ⟨hfgc, hareac⟩, hstep.2.2⟩ hconnc⟩

theorem mem_allIds {n : Nat} (L : Fin n → Nat) (p : Fin n) : L p ∈ allIds L :=
  List.mem_dedup.mpr (List.mem_map.mpr ⟨p, List.mem_finRange p, rfl⟩)

/-- Pointwise behaviour of the remove_spots loop body: a pixel survives as
1 exactly when it is foreground and its region AREA reaches the
threshold. -/
theorem remove_spots_slice_char {n : Nat} (L : Fin n → Nat) (area : Int) (p : Fin n) :
    (remove_spots_slice L area p = 0 ∨ remove_spots_slice L area p = 1) ∧
      (remove_spots_slice L area p = 1 ↔
        (L p ≠ 0 ∧ area ≤ (areaOf L (L p) : Int))) := by
  unfold remove_spots_slice
  have hmem : L p ∈ (allIds L).filter (fun j => (areaOf L j : Int) < area) ↔
      (areaOf L (L p) : Int) < area := by
    rw [List.mem_filter]
    simp [mem_allIds L p]
  by_cases h : (areaOf L (L p) : Int) < area
  · rw [if_pos (hmem.mpr h)]
    simp
    omega
  · rw [if_neg (fun hc => h (hmem.mp hc))]
    by_cases h0 : L p = 0
    · simp [h0]
    · simp [h0]
      omega

theorem getD_map_of_lt {α β : Type} (f : α → β) (l : List α) (i : Nat)
    (h : i < l.length) (d : β) (d0 : α) :
    (l.map f).getD i d = f (l.getD i d0) := by
  rw [List.getD_eq_getElem _ _ (by simpa using h), List.getD_eq_getElem _ _ h,
    List.getElem_map]

/-- C4: remove_spots keeps the stack shape; per slice, the output is binary,
a pixel is foreground exactly when its region AREA reaches the threshold
(so every region with AREA strictly below area is erased and the survivors
collapse to the single value 1), and re-analyzing any output slice finds no
foreground region of AREA below area. -/
theorem remove_spots_correct {n : Nat} (adj : Fin n → Fin n → Prop)
    (Ls : List (Fin n → Nat)) (area : Int) :
    (remove_spots Ls area).length = Ls.length ∧
    ∀ i, i < Ls.length → ∀ fg : Fin n → Prop,
      isCompLab adj fg (Ls.getD i (fun _ => 0)) →
      (∀ p, (remove_spots Ls area).getD i (fun _ => 0) p = 0 ∨
            (remove_spots Ls area).getD i (fun _ => 0) p = 1) ∧
      (∀ p, (remove_spots Ls area).getD i (fun _ => 0) p = 1 ↔
        (Ls.getD i (fun _ => 0) p ≠ 0 ∧
          area ≤ (areaOf (Ls.getD i (fun _ => 0)) (Ls.getD i (fun _ => 0) p) : Int))) ∧
      (∀ L2 : Fin n → Nat,
        isCompLab adj (fun p => (remove_spots Ls area).getD i (fun _ => 0) p ≠ 0) L2 →
        ∀ p, (remove_spots Ls area).getD i (fun _ => 0) p ≠ 0 →
          area ≤ (areaOf L2 (L2 p) : Int)) := by
  refine ⟨List.length_map _ _, ?_⟩
  intro i hi fg hL
  set L : Fin n → Nat := Ls.getD i (fun _ => 0) with hLdef
  have hout : (remove_spots Ls area).getD i (fun _ => 0) = remove_spots_slice L area := by
    unfold remove_spots
    exact getD_map_of_lt _ Ls i hi _ _
  rw [hout]
  refine ⟨fun p => (remove_spots_slice_char L area p).1,
    fun p => (remove_spots_slice_char L area p).2, ?_⟩
  intro L2 hL2 p hOp
  set O : Fin n → Prop := fun r => remove_spots_slice L area r ≠ 0 with hOdef
  have hchar : ∀ r, O r ↔ (fg r ∧ area ≤ (areaOf L (L r) : Int)) := by
    intro r
    have h1 := (remove_spots_slice_char L area r).1
    have h2 := (remove_spots_slice_char L area r).2
    constructor
    · intro h
      rcases h1 with h0 | h0
      · exact absurd h0 h
      · exact ⟨(hL.1 r).mp (h2.mp h0).1, (h2.mp h0).2⟩
    · intro ⟨hfr, har⟩
      show remove_spots_slice L area r ≠ 0
      rw [h2.mpr ⟨(hL.1 r).mpr hfr, har⟩]
      norm_num
  have hOp2 := (hchar p).mp hOp
  have hfilter : ∀ q : Fin n, L2 q = L2 p ↔ L q = L p := by
    intro q
    constructor
    · intro hq2
      have hL2p : L2 p ≠ 0 := (hL2.1 p).mpr hOp
      have hOq : O q := (hL2.1 q).mp (hq2 ▸ hL2p)
      have hconnO : conn adj O q p := (hL2.2 q p hOq hOp).mp hq2
      have hconnfg : conn adj fg q p :=
        conn_mono adj O fg (fun r hr => ((hchar r).mp hr).1) hconnO
      exact (hL.2 q p ((hchar q).mp hOq).1 hOp2.1).mpr hconnfg
    · intro hq
      have hLp : L p ≠ 0 := (hL.1 p).mpr hOp2.1
      have hfgq : fg q := (hL.1 q).mp (hq ▸ hLp)
      have hconnfg : conn adj fg q p := (hL.2 q p hfgq hOp2.1).mp hq
      obtain ⟨⟨hfq, haq⟩, hconnS⟩ :=
        conn_survivors adj fg L hL area p hOp2.1 hOp2.2 q hconnfg
      have hconnO : conn adj O q p :=
        conn_mono adj _ O (fun r hr => (hchar r).mpr hr) hconnS
      exact (hL2.2 q p ((hchar q).mpr ⟨hfq, haq⟩) hOp).mpr hconnO
  have hareaeq : areaOf L2 (L2 p) = areaOf L (L p) := by
    unfold areaOf
    congr 1
    apply List.filter_congr
    intro q _
    simp [hfilter q]
  rw [hareaeq]
  exact hOp2.2

theorem insertDesc_perm (key : Nat → Nat) (a : Nat) (l : List Nat) :
    (insertDesc key a l).Perm (a :: l) := by
  induction l with
  | nil => exact List.Perm.refl _
  | cons b bs ih =>
    unfold insertDesc
    by_cases h : key b < key a
    · rw [if_pos h]
    · rw [if_neg h]
      exact ((ih.cons b).trans (List.Perm.swap a b bs))

theorem sortDesc_perm (key : Nat → Nat) (l : List Nat) :
    (sortDesc key l).Perm l := by
  induction l with
  | nil => exact List.Perm.refl _
  | cons x xs ih =>
    exact (insertDesc_perm key x (sortDesc key xs)).trans (ih.cons x)

theorem insertDesc_pairwise (key : Nat → Nat) (a : Nat) (l : List Nat)
    (h : l.Pairwise (fun x y => key y ≤ key x)) :
    (insertDesc key a l).Pairwise (fun x y => key y ≤ key x) := by
  induction l with
  | nil => exact List.pairwise_singleton _ _
  | cons b bs ih =>
    rw [List.pairwise_cons] at h
    unfold insertDesc
    by_cases hab : key b < key a
    · rw [if_pos hab]
      rw [List.pairwise_cons]
      refine ⟨?_, List.pairwise_cons.mpr h⟩
      intro x hx
      rcases List.mem_cons.mp hx with hx | hx
      · exact hx ▸ le_of_lt hab
      · exact le_trans (h.1 x hx) (le_of_lt hab)
    · rw [if_neg hab]
      rw [List.pairwise_cons]
      refine ⟨?_, ih h.2⟩
      intro x hx
      have hx2 : x ∈ a :: bs := (insertDesc_perm key a bs).mem_iff.mp hx
      rcases List.mem_cons.mp hx2 with hx2 | hx2
      · exact hx2 ▸ le_of_not_lt hab
      · exact h.1 x hx2

theorem sortDesc_pairwise (key : Nat → Nat) (l : List Nat) :
    (sortDesc key l).Pairwise (fun x y => key y ≤ key x) := by
  induction l with
  | nil => exact List.Pairwise.nil
  | cons x xs ih => exact insertDesc_pairwise key x (sortDesc key xs) ih

theorem idsList_nodup {n : Nat} (L : Fin n → Nat) : (idsList L).Nodup :=
  (List.nodup_dedup _).filter _

theorem sortedIds_nodup {n : Nat} (L : Fin n → Nat) : (sortedIds L).Nodup :=
  (sortDesc_perm (areaOf L) (idsList L)).nodup_iff.mpr (idsList_nodup L)

theorem mem_sortedIds {n : Nat} (L : Fin n → Nat) (j : Nat) :
    j ∈ sortedIds L ↔ j ∈ idsList L :=
  (sortDesc_perm (areaOf L) (idsList L)).mem_iff

theorem mem_idsList {n : Nat} (L : Fin n → Nat) (j : Nat) :
    j ∈ idsList L ↔ (∃ p, L p = j) ∧ j ≠ 0 := by
  unfold idsList allIds
  rw [List.mem_filter, List.mem_dedup, List.mem_map]
  simp [List.mem_finRange]

theorem sortedIds_length {n : Nat} (L : Fin n → Nat) :
    (sortedIds L).length = (idsList L).length :=
  (sortDesc_perm (areaOf L) (idsList L)).length_eq

/-- The per-slice guarantee of the amended C1: when the slice has at least
n_reg foreground regions the output keeps exactly a set S of n_reg region
ids whose areas dominate every region outside S; with fewer regions the
slice is cleared. -/
def selectSliceSpec {n : Nat} (L out : Fin n → Nat) (n_reg : Int) : Prop :=
  ((n_reg ≤ ((idsList L).length : Int)) →
    ∃ S : Finset Nat, S.card = n_reg.toNat ∧
      (∀ j ∈ S, j ∈ idsList L) ∧
      (∀ j ∈ S, ∀ k, k ∈ idsList L → k ∉ S → areaOf L k ≤ areaOf L j) ∧
      (∀ p, (out p = 255 ↔ L p ∈ S) ∧ (out p = 255 ∨ out p = 0))) ∧
  ((((idsList L).length : Int) < n_reg) → ∀ p, out p = 0)

theorem select_greater_slice_spec {n : Nat} (L : Fin n → Nat) (n_reg : Int)
    (h255 : ∀ p, L p < 255)
    (huniq : n_reg ≤ ((idsList L).length : Int) →
      ∀ a ∈ topAreas L n_reg.toNat,
        ((sortedIds L).filter (fun j => areaOf L j = a)).length = 1) :
    (select_greater_slice L n_reg).isSome = true ∧
      selectSliceSpec L ((select_greater_slice L n_reg).getD (fun _ => 0)) n_reg := by
  unfold select_greater_slice
  by_cases hc : ((sortedIds L).length : Int) > n_reg - 1
  · have hle : n_reg ≤ ((idsList L).length : Int) := by
      rw [sortedIds_length] at hc
      omega
    have hcond := huniq hle
    rw [if_pos hc, if_pos hcond]
    refine ⟨rfl, ?_, ?_⟩
    · intro _
      refine ⟨((sortedIds L).take n_reg.toNat).toFinset, ?_, ?_, ?_, ?_⟩
      · have hnd : ((sortedIds L).take n_reg.toNat).Nodup :=
          (sortedIds_nodup L).sublist (List.take_sublist _ _)
        rw [List.toFinset_card_of_nodup hnd, List.length_take]
        have : n_reg.toNat ≤ (sortedIds L).length := by
          rw [sortedIds_length]
          exact Int.toNat_le.mpr hle
        omega
      · intro j hj
        exact (mem_sortedIds L j).mp
          (List.take_subset _ _ (List.mem_toFinset.mp hj))
      · intro j hj k hk hkS
        have hj2 : j ∈ (sortedIds L).take n_reg.toNat := List.mem_toFinset.mp hj
        have hk2 : k ∈ (sortedIds L).drop n_reg.toNat := by
          have hk3 : k ∈ sortedIds L := (mem_sortedIds L k).mpr hk
          rw [← List.take_append_drop n_reg.toNat (sortedIds L)] at hk3
          rcases List.mem_append.mp hk3 with h | h
          · exact absurd (List.mem_toFinset.mpr h) hkS
          · exact h
        have hpw := sortDesc_pairwise (areaOf L) (idsList L)
        have hpw2 : ((sortedIds L).take n_reg.toNat ++
            (sortedIds L).drop n_reg.toNat).Pairwise
            (fun x y => areaOf L y ≤ areaOf L x) := by
          rw [List.take_append_drop]
          exact hpw
        exact (List.pairwise_append.mp hpw2).2.2 j hj2 k hk2
      · intro p
        have hsel : ∀ j, j ∈ (sortedIds L).filter
            (fun j => areaOf L j ∈ topAreas L n_reg.toNat) ↔
            j ∈ (sortedIds L).take n_reg.toNat := by
          intro j
          constructor
          · intro hjf
            rw [List.mem_filter] at hjf
            obtain ⟨hjs, hja⟩ := hjf
            have hja2 : areaOf L j ∈ topAreas L n_reg.toNat := by
              simpa using hja
            unfold topAreas at hja2
            obtain ⟨j0, hj0, hj0a⟩ := List.mem_map.mp hja2
            have hmem : areaOf L j0 ∈ topAreas L n_reg.toNat := by
              unfold topAreas
              exact List.mem_map.mpr ⟨j0, hj0, rfl⟩
            obtain ⟨x, hx⟩ := List.length_eq_one.mp (hcond _ hmem)
            have hjx : j = x := by
              have : j ∈ (sortedIds L).filter
                  (fun j2 => areaOf L j2 = areaOf L j0) := by
                rw [List.mem_filter]
                exact ⟨hjs, by simp [hj0a.symm]⟩
              rw [hx] at this
              simpa using this
            have hj0x : j0 = x := by
              have : j0 ∈ (sortedIds L).filter
                  (fun j2 => areaOf L j2 = areaOf L j0) := by
                rw [List.mem_filter]
                exact ⟨List.take_subset _ _ hj0, by simp⟩
              rw [hx] at this
              simpa using this
            rw [hjx, ← hj0x]
            exact hj0
          · intro hjt
            rw [List.mem_filter]
            refine ⟨List.take_subset _ _ hjt, ?_⟩
            have : areaOf L j ∈ topAreas L n_reg.toNat := by
              unfold topAreas
              exact List.mem_map.mpr ⟨j, hjt, rfl⟩
            simpa using this
        have hid255 : ∀ j, j ∈ (sortedIds L).filter
            (fun j => areaOf L j ∈ topAreas L n_reg.toNat) → j % 256 = j := by
          intro j hj
          have hj2 : j ∈ idsList L :=
            (mem_sortedIds L j).mp (List.mem_filter.mp hj).1
          obtain ⟨⟨p2, hp2⟩, _⟩ := (mem_idsList L j).mp hj2
          exact Nat.mod_eq_of_lt (hp2 ▸ lt_trans (h255 p2) (by norm_num))
        have hany : ((sortedIds L).filter
            (fun j => areaOf L j ∈ topAreas L n_reg.toNat)).any
            (fun j => L p = j % 256) = true ↔
            L p ∈ ((sortedIds L).take n_reg.toNat).toFinset := by
          rw [List.any_eq_true]
          constructor
          · intro ⟨j, hj, hpj⟩
            have hpj2 : L p = j := by
              rw [hid255 j hj] at hpj
              exact of_decide_eq_true hpj
            rw [List.mem_toFinset, hpj2]
            exact (hsel j).mp hj
          · intro hp
            refine ⟨L p, (hsel (L p)).mpr (List.mem_toFinset.mp hp), ?_⟩
            rw [Nat.mod_eq_of_lt (lt_trans (h255 p) (by norm_num))]
            exact decide_eq_true rfl
        rw [Option.getD_some]
        by_cases ha : ((sortedIds L).filter
            (fun j => areaOf L j ∈ topAreas L n_reg.toNat)).any
            (fun j => L p = j % 256) = true
        · simp only [ha, if_true]
          constructor
          · constructor
            · intro _
              exact hany.mp ha
            · intro _
              rfl
          · left
            rfl
        · simp only [Bool.not_eq_true] at ha
          simp only [ha, Bool.false_eq_true, if_false]
          have hne : L p ≠ 255 := fun hcon => absurd hcon (Nat.ne_of_lt (h255 p))
          rw [if_pos hne]
          constructor
          · constructor
            · intro h0
              exact absurd h0.symm (by norm_num)
            · intro hS
              exact absurd (hany.mpr hS) (by rw [ha]; norm_num)
          · right
            rfl
    · intro hlt
      rw [sortedIds_length] at hc
      omega
  · rw [if_neg hc]
    refine ⟨rfl, ?_, ?_⟩
    · intro hle
      rw [sortedIds_length] at hc
      omega
    · intro _ p
      rw [Option.getD_some]
      by_cases h0 : L p = 0
      · simp [h0]
      · simp [h0]

theorem mapOpt_isSome_eq {α β : Type} (f : α → Option β) (d : β) (l : List α)
    (h : ∀ x ∈ l, (f x).isSome = true) :
    mapOpt f l = some (l.map (fun x => (f x).getD d)) := by
  induction l with
  | nil => rfl
  | cons x xs ih =>
    unfold mapOpt
    cases hfx : f x with
    | none =>
      have := h x (List.mem_cons_self x xs)
      rw [hfx] at this
      cases this
    | some y =>
      rw [ih (fun z hz => h z (List.mem_cons_of_mem _ hz))]
      simp [hfx]

theorem mapOpt_mem {α β : Type} (f : α → Option β) (l : List α) (ys : List β)
    (h : mapOpt f l = some ys) : ∀ y ∈ ys, ∃ x ∈ l, f x = some y := by
  induction l generalizing ys with
  | nil =>
    unfold mapOpt at h
    injection h with h
    subst h
    intro y hy
    cases hy
  | cons x xs ih =>
    unfold mapOpt at h
    cases hfx : f x with
    | none =>
      rw [hfx] at h
      cases h
    | some y0 =>
      cases hmx : mapOpt f xs with
      | none =>
        rw [hfx, hmx] at h
        cases h
      | some zs =>
        rw [hfx, hmx] at h
        injection h with h
        subst h
        intro y hy
        rcases List.mem_cons.mp hy with hy | hy
        · exact ⟨x, List.mem_cons_self x xs, hy ▸ hfx⟩
        · obtain ⟨x2, hx2, hfx2⟩ := ih zs hmx y hy
          exact ⟨x2, List.mem_cons_of_mem _ hx2, hfx2⟩

theorem getD_mem_of_lt {α : Type} (l : List α) (i : Nat) (h : i < l.length) (d : α) :
    l.getD i d ∈ l := by
  rw [List.getD_eq_getElem _ _ h]
  exact List.getElem_mem _

/-- C1 (amended): for n_reg at least 1, on label maps with ids below 255 and
whose n_reg largest AREA values are each attained by a single region, the
selection succeeds slice by slice, and each output slice either keeps
exactly a set of n_reg region ids of dominating AREA (pixels painted 255,
everything else 0) or, when the slice has fewer than n_reg foreground
regions, is entirely background. -/
theorem select_greater_correct {n : Nat} (Ls : List (Fin n → Nat)) (n_reg : Int)
    (h1 : 1 ≤ n_reg)
    (h255 : ∀ L ∈ Ls, ∀ p, L p < 255)
    (huniq : ∀ L ∈ Ls, n_reg ≤ ((idsList L).length : Int) →
      ∀ a ∈ topAreas L n_reg.toNat,
        ((sortedIds L).filter (fun j => areaOf L j = a)).length = 1) :
    ∃ outs, select_greater_connected_regions Ls n_reg = some outs ∧
      outs.length = Ls.length ∧
      ∀ i, i < Ls.length →
        selectSliceSpec (Ls.getD i (fun _ => 0)) (outs.getD i (fun _ => 0)) n_reg := by
  have hsome : ∀ L ∈ Ls, (select_greater_slice L n_reg).isSome = true :=
    fun L hL => (select_greater_slice_spec L n_reg (h255 L hL) (huniq L hL)).1
  refine ⟨Ls.map (fun L => (select_greater_slice L n_reg).getD (fun _ => 0)),
    mapOpt_isSome_eq _ _ Ls hsome, List.length_map _ _, ?_⟩
  intro i hi
  rw [getD_map_of_lt _ Ls i hi _ (fun _ => 0)]
  have hmem := getD_mem_of_lt Ls i hi (fun _ => 0)
  exact (select_greater_slice_spec _ n_reg (h255 _ hmem) (huniq _ hmem)).2

/-- Counterexample to C1 as stated: a slice with two foreground regions of
equal AREA 1 and n_reg = 1 has at least n_reg regions, yet the exact-AREA
query returns a two-element index that numpy cannot use as a scalar
(np.uint8 of a two-element index makes lab == ... an invalid comparison),
so the call fails instead of keeping the single largest region. -/
theorem select_greater_tie_fails :
    select_greater_connected_regions
      [fun p : Fin 3 => if p.val = 0 then 1 else if p.val = 1 then 2 else 0]
      1 = none := by
  decide

/-- Witness for the amended C1: one slice with two regions of distinct
areas 1 and 2 and n_reg = 1; all hypotheses hold and the selection
succeeds. -/
theorem select_greater_correct_witness :
    (1 : Int) ≤ 1 ∧
    (∀ L ∈ ([fun p : Fin 3 => if p.val = 0 then 1 else 2] : List (Fin 3 → Nat)),
      ∀ p, L p < 255) ∧
    (∀ L ∈ ([fun p : Fin 3 => if p.val = 0 then 1 else 2] : List (Fin 3 → Nat)),
      (1 : Int) ≤ ((idsList L).length : Int) →
      ∀ a ∈ topAreas L (1 : Int).toNat,
        ((sortedIds L).filter (fun j => areaOf L j = a)).length = 1) ∧
    (∃ outs, select_greater_connected_regions
        ([fun p : Fin 3 => if p.val = 0 then 1 else 2] : List (Fin 3 → Nat)) 1 =
          some outs ∧
      outs.length = ([fun p : Fin 3 => if p.val = 0 then 1 else 2] :
        List (Fin 3 → Nat)).length ∧
      ∀ i, i < ([fun p : Fin 3 => if p.val = 0 then 1 else 2] :
          List (Fin 3 → Nat)).length →
        selectSliceSpec
          (([fun p : Fin 3 => if p.val = 0 then 1 else 2] :
            List (Fin 3 → Nat)).getD i (fun _ => 0))
          (outs.getD i (fun _ => 0)) 1) :=
  ⟨le_refl 1, by decide, by decide,
    select_greater_correct _ 1 (le_refl 1) (by decide) (by decide)⟩

theorem select_greater_slice_values {n : Nat} (L : Fin n → Nat) (n_reg : Int)
    (out : Fin n → Nat) (h : select_greater_slice L n_reg = some out) :
    ∀ p, out p = 0 ∨ out p = 255 := by
  unfold select_greater_slice at h
  split at h
  · split at h
    · injection h with h
      subst h
      intro p
      dsimp only
      by_cases hb : ((sortedIds L).filter
          (fun j => areaOf L j ∈ topAreas L n_reg.toNat)).any
          (fun j => L p = j % 256) = true
      · simp only [hb, if_true]
        right
        rfl
      · simp only [Bool.not_eq_true] at hb
        simp only [hb, Bool.false_eq_true, if_false]
        by_cases h255 : L p = 255
        · rw [if_neg (by simpa using h255)]
          right
          exact h255
        · rw [if_pos h255]
          left
          rfl
    · cases h
  · injection h with h
    subst h
    intro p
    by_cases h0 : L p = 0
    · simp [h0]
    · simp [h0]

/-- C9 (amended): whatever the value convention of the input volume, every
slice select_greater_connected_regions returns uses the fixed uint8
convention background 0 / foreground 255; the output does not follow the
input convention. -/
theorem select_greater_output_values {n : Nat} (Ls : List (Fin n → Nat))
    (n_reg : Int) (outs : List (Fin n → Nat))
    (h : select_greater_connected_regions Ls n_reg = some outs) :
    ∀ out ∈ outs, ∀ p, out p = 0 ∨ out p = 255 := by
  intro out hout p
  obtain ⟨L, _, hL⟩ := mapOpt_mem _ Ls outs h out hout
  exact select_greater_slice_values L n_reg out hL p

/-- A component labeling statement on a one-pixel slice reduces to the
background iff condition, since connectivity is trivial there. -/
theorem isCompLab_fin_one (adj : Fin 1 → Fin 1 → Prop) (fg : Fin 1 → Prop)
    (L : Fin 1 → Nat) (h : L 0 ≠ 0 ↔ fg 0) : isCompLab adj fg L := by
  constructor
  · intro p
    rw [Subsingleton.elim p 0]
    exact h
  · intro p q _ _
    constructor
    · intro _
      rw [Subsingleton.elim p q]
      exact Relation.ReflTransGen.refl
    · intro _
      rw [Subsingleton.elim p q]

/-- Counterexample to C9 as stated: a volume in the 0/1 convention (its one
voxel is 1, a valid analyzer labeling of it is the map itself) is selected
to a slice whose foreground value is 255, not 1: the output does not keep
the input convention. -/
theorem select_greater_not_input_convention :
    (∀ p : Fin 1, (fun _ : Fin 1 => (1 : Nat)) p = 0 ∨
      (fun _ : Fin 1 => (1 : Nat)) p = 1) ∧
    isCompLab (fun _ _ : Fin 1 => False)
      (fun p => (fun _ : Fin 1 => (1 : Nat)) p ≠ 0) (fun _ : Fin 1 => 1) ∧
    (select_greater_connected_regions [fun _ : Fin 1 => (1 : Nat)] 1).map
      (fun outs => outs.getD 0 (fun _ => 0) 0) = some 255 :=
  ⟨by decide, isCompLab_fin_one _ _ _ (by decide), by decide⟩

/-- Witness for the amended C9: the selection output on a concrete volume
only carries values 0 and 255. -/
theorem select_greater_output_values_witness :
    ((select_greater_connected_regions [fun _ : Fin 2 => (1 : Nat)] 1).getD
        []).getD 0 (fun _ => 0) 0 = 0 ∨
    ((select_greater_connected_regions [fun _ : Fin 2 => (1 : Nat)] 1).getD
        []).getD 0 (fun _ => 0) 0 = 255 :=
  select_greater_output_values [fun _ : Fin 2 => (1 : Nat)] 1
    ((select_greater_connected_regions [fun _ : Fin 2 => (1 : Nat)] 1).getD [])
    rfl
    (((select_greater_connected_regions [fun _ : Fin 2 => (1 : Nat)] 1).getD
        []).getD 0 (fun _ => 0))
    (List.Mem.head _) 0

/-- Witness for C4: a one-pixel slice whose pixel carries region id 1 of
AREA 1, with threshold 1; the analyzer contract holds for input and output
and the surviving region AREA reaches the threshold. -/
theorem remove_spots_correct_witness :
    (0 < ([fun _ : Fin 1 => (1 : Nat)] : List (Fin 1 → Nat)).length) ∧
    isCompLab (fun _ _ : Fin 1 => False) (fun _ => True)
      (([fun _ : Fin 1 => (1 : Nat)] : List (Fin 1 → Nat)).getD 0 (fun _ => 0)) ∧
    isCompLab (fun _ _ : Fin 1 => False)
      (fun p => (remove_spots ([fun _ : Fin 1 => (1 : Nat)] :
        List (Fin 1 → Nat)) 1).getD 0 (fun _ => 0) p ≠ 0)
      (fun _ => 1) ∧
    ((remove_spots ([fun _ : Fin 1 => (1 : Nat)] : List (Fin 1 → Nat)) 1).getD 0
      (fun _ => 0) 0 ≠ 0) ∧
    (1 : Int) ≤ (areaOf (fun _ : Fin 1 => (1 : Nat))
      ((fun _ : Fin 1 => (1 : Nat)) 0) : Int) :=
  ⟨by decide, isCompLab_fin_one _ _ _ (by decide),
    isCompLab_fin_one _ _ _ (by decide), by decide,
    ((remove_spots_correct (fun _ _ : Fin 1 => False)
        [fun _ : Fin 1 => (1 : Nat)] 1).2 0 (by decide) (fun _ => True)
      (isCompLab_fin_one _ _ _ (by decide))).2.2 (fun _ => 1)
      (isCompLab_fin_one _ _ _ (by decide)) 0 (by decide)⟩

/-- C6 (amended): the three functions perform no parameter validation.
With a non-positive area remove_spots simply removes nothing (the query
AREA < area matches no row) and returns the normalized input; with a
non-positive n_reg select_greater_connected_regions silently returns an
all-background stack (on label maps without id 255); only bit_plane_slices
with a bit value of 0 fails, and it does so at plane-indexing time, not at
a validation boundary. -/
theorem no_parameter_validation :
    (∀ n : Nat, ∀ Ls : List (Fin n → Nat), ∀ area : Int, area ≤ 0 →
      ∀ i, i < Ls.length → ∀ p,
        (remove_spots Ls area).getD i (fun _ => 0) p =
          if Ls.getD i (fun _ => 0) p ≠ 0 then 1 else 0) ∧
    (∀ n : Nat, ∀ Ls : List (Fin n → Nat), ∀ n_reg : Int, n_reg ≤ 0 →
      (∀ L ∈ Ls, ∀ p, L p < 255) →
      ∃ outs, select_greater_connected_regions Ls n_reg = some outs ∧
        outs.length = Ls.length ∧
        ∀ i, i < Ls.length → ∀ p, outs.getD i (fun _ => 0) p = 0) ∧
    (∀ stack : List Nat, ∀ bits : List Int, (0 : Int) ∈ bits →
      bit_plane_slices stack bits = none) := by
  refine ⟨?_, ?_, bit_plane_slices_bit_zero_fails⟩
  · intro n Ls area harea i hi p
    unfold remove_spots
    rw [getD_map_of_lt _ Ls i hi _ (fun _ => 0)]
    set L : Fin n → Nat := Ls.getD i (fun _ => 0)
    have hchar := remove_spots_slice_char L area p
    by_cases h0 : L p = 0
    · rw [if_neg (by simpa using h0)]
      rcases hchar.1 with h | h
      · exact h
      · exact absurd (hchar.2.mp h).1 (by simpa using h0)
    · rw [if_pos (by simpa using h0)]
      exact hchar.2.mpr ⟨h0, le_trans harea (Int.ofNat_nonneg _)⟩
  · intro n Ls n_reg hreg h255
    have htop : ∀ L : Fin n → Nat, topAreas L n_reg.toNat = [] := by
      intro L
      unfold topAreas
      rw [Int.toNat_of_nonpos hreg]
      rw [List.take_zero]
      rfl
    have hsp : ∀ L ∈ Ls, (select_greater_slice L n_reg).isSome = true ∧
        selectSliceSpec L ((select_greater_slice L n_reg).getD (fun _ => 0)) n_reg :=
      fun L hL => select_greater_slice_spec L n_reg (h255 L hL)
        (fun _ a ha => absurd ha (by rw [htop L]; exact List.not_mem_nil a))
    refine ⟨Ls.map (fun L => (select_greater_slice L n_reg).getD (fun _ => 0)),
      mapOpt_isSome_eq _ _ Ls (fun L hL => (hsp L hL).1), List.length_map _ _, ?_⟩
    intro i hi p
    rw [getD_map_of_lt _ Ls i hi _ (fun _ => 0)]
    have hmem := getD_mem_of_lt Ls i hi (fun _ => 0)
    have hspec := (hsp _ hmem).2
    have hle : n_reg ≤ ((idsList (Ls.getD i (fun _ => 0))).length : Int) :=
      le_trans hreg (Int.ofNat_nonneg _)
    obtain ⟨S, hScard, _, _, hSout⟩ := hspec.1 hle
    have hS : S = ∅ := by
      rw [← Finset.card_eq_zero, hScard, Int.toNat_of_nonpos hreg]
    rcases (hSout p).2 with h | h
    · have := (hSout p).1.mp h
      rw [hS] at this
      cases this
    · exact h

/-- Counterexample to C6 as stated: calling remove_spots with the invalid
area -5 does not abort at any validation boundary; it returns a normal
output stack whose voxel is even foreground. -/
theorem remove_spots_invalid_area_returns :
    (remove_spots [fun _ : Fin 1 => (1 : Nat)] (-5)).getD 0 (fun _ => 0) 0 = 1 := by
  decide

/-- Witness for the amended C6: concrete invalid parameters for all three
functions, with the behaviour the amended claim states. -/
theorem no_parameter_validation_witness :
    ((-1 : Int) ≤ 0 ∧ 0 < ([fun _ : Fin 1 => (1 : Nat)] : List (Fin 1 → Nat)).length ∧
      (remove_spots [fun _ : Fin 1 => (1 : Nat)] (-1)).getD 0 (fun _ => 0) 0 =
        if ([fun _ : Fin 1 => (1 : Nat)] :
          List (Fin 1 → Nat)).getD 0 (fun _ => 0) 0 ≠ 0 then 1 else 0) ∧
    ((0 : Int) ≤ 0 ∧
      (∀ L ∈ ([fun _ : Fin 1 => (1 : Nat)] : List (Fin 1 → Nat)), ∀ p, L p < 255) ∧
      ∃ outs, select_greater_connected_regions
          ([fun _ : Fin 1 => (1 : Nat)] : List (Fin 1 → Nat)) 0 = some outs ∧
        outs.length = ([fun _ : Fin 1 => (1 : Nat)] : List (Fin 1 → Nat)).length ∧
        ∀ i, i < ([fun _ : Fin 1 => (1 : Nat)] : List (Fin 1 → Nat)).length →
          ∀ p, outs.getD i (fun _ => 0) p = 0) ∧
    ((0 : Int) ∈ [(0 : Int), 5, 9] ∧ bit_plane_slices [77] [0, 5, 9] = none) :=
  ⟨⟨by norm_num, by decide,
      no_parameter_validation.1 1 [fun _ : Fin 1 => (1 : Nat)] (-1) (by norm_num)
        0 (by decide) 0⟩,
    ⟨le_refl 0, by decide,
      no_parameter_validation.2.1 1 [fun _ : Fin 1 => (1 : Nat)] 0 (le_refl 0)
        (by decide)⟩,
    ⟨by decide, no_parameter_validation.2.2 [77] [0, 5, 9] (by decide)⟩⟩

/-! ## Gap reconstruction: reconstruct_gg_areas

A mask volume is a list of slices; a slice is a list of uint8 gray levels
(flattened pixel grid). np.bitwise_or and np.bitwise_and act pointwise. -/

/-- Pointwise np.bitwise_or of two slices. -/
def zipOr (a b : List Nat) : List Nat := List.zipWith Nat.lor a b

/-- Pointwise np.bitwise_and of two slices. -/
def zipAnd (a b : List Nat) : List Nat := List.zipWith Nat.land a b

/-- The forward loop of reconstruct_gg_areas after the first slice: each
slice becomes the OR of itself and the already-updated previous slice
(the accumulator). -/
def fwdAux (acc : List Nat) : List (List Nat) → List (List Nat)
  | [] => []
  | x :: xs => zipOr acc x :: fwdAux (zipOr acc x) xs

/-- Embeds the first loop: first[i + 1] = first[i] | first[i + 1] on a copy
of the mask. -/
def forwardSweep : List (List Nat) → List (List Nat)
  | [] => []
  | s :: rest => s :: fwdAux s rest

/-- Embeds the second loop: second[i - 1] = second[i - 1] | second[i],
sweeping from the last slice down, on an independent copy of the mask. -/
def backwardSweep : List (List Nat) → List (List Nat)
  | [] => []
  | x :: xs =>
    match backwardSweep xs with
    | [] => [x]
    | y :: ys => zipOr x y :: y :: ys

/-- Embeds reconstruct_gg_areas: the final volume is the slice-wise AND of
the forward-swept and backward-swept copies; the input itself is left
untouched (the embedding is a pure function of it, as the code works on
mask.copy() buffers). -/
def reconstruct_gg_areas (mask : List (List Nat)) : List (List Nat) :=
  List.zipWith zipAnd (forwardSweep mask) (backwardSweep mask)

/-- The gray level of pixel p of slice i (0 outside the volume). -/
def pix (m : List (List Nat)) (i p : Nat) : Nat := (m.getD i []).getD p 0

/-- OR-reduction of a list of gray levels. -/
def orCol (l : List Nat) : Nat := l.foldr Nat.lor 0

/-- The column of gray levels at pixel p across the slices of m. -/
def colPix (m : List (List Nat)) (p : Nat) : List Nat :=
  m.map (fun s => s.getD p 0)

theorem lor_eq_zero {a b : Nat} : Nat.lor a b = 0 ↔ a = 0 ∧ b = 0 := by
  constructor
  · intro h
    have h2 : ∀ i, Nat.testBit (a ||| b) i = false := by
      intro i
      rw [show a ||| b = Nat.lor a b from rfl, h]
      exact Nat.zero_testBit i
    constructor
    · apply Nat.eq_of_testBit_eq
      intro i
      rw [Nat.zero_testBit]
      have h3 := h2 i
      simp only [Nat.testBit_lor, Bool.or_eq_false_iff] at h3
      exact h3.1
    · apply Nat.eq_of_testBit_eq
      intro i
      rw [Nat.zero_testBit]
      have h3 := h2 i
      simp only [Nat.testBit_lor, Bool.or_eq_false_iff] at h3
      exact h3.2
  · intro ⟨ha, hb⟩
    rw [ha, hb]
    rfl

theorem fwdAux_length (acc : List Nat) (xs : List (List Nat)) :
    (fwdAux acc xs).length = xs.length := by
  induction xs generalizing acc with
  | nil => rfl
  | cons x xs ih =>
    unfold fwdAux
    rw [List.length_cons, List.length_cons, ih]

theorem forwardSweep_length (m : List (List Nat)) :
    (forwardSweep m).length = m.length := by
  cases m with
  | nil => rfl
  | cons s rest =>
    unfold forwardSweep
    rw [List.length_cons, List.length_cons, fwdAux_length]

theorem backwardSweep_length (m : List (List Nat)) :
    (backwardSweep m).length = m.length := by
  induction m with
  | nil => rfl
  | cons x xs ih =>
    unfold backwardSweep
    cases hbs : backwardSweep xs with
    | nil =>
      rw [hbs] at ih
      simp only [List.length_cons, List.length_nil] at ih ⊢
      omega
    | cons y ys =>
      rw [hbs] at ih
      simp only [List.length_cons] at ih ⊢
      omega

theorem zipOr_length_of (w : Nat) (a b : List Nat) (ha : a.length = w)
    (hb : b.length = w) : (zipOr a b).length = w := by
  unfold zipOr
  rw [List.length_zipWith, ha, hb, Nat.min_self]

theorem fwdAux_widths (w : Nat) (acc : List Nat) (xs : List (List Nat))
    (hacc : acc.length = w) (hxs : ∀ s ∈ xs, s.length = w) :
    ∀ s ∈ fwdAux acc xs, s.length = w := by
  induction xs generalizing acc with
  | nil => intro s hs; cases hs
  | cons x xs ih =>
    intro s hs
    have hzw : (zipOr acc x).length = w :=
      zipOr_length_of w acc x hacc (hxs x (List.mem_cons_self _ _))
    rcases List.mem_cons.mp hs with hs | hs
    · exact hs ▸ hzw
    · exact ih (zipOr acc x) hzw (fun t ht => hxs t (List.mem_cons_of_mem _ ht)) s hs

theorem forwardSweep_widths (w : Nat) (m : List (List Nat))
    (hw : ∀ s ∈ m, s.length = w) : ∀ s ∈ forwardSweep m, s.length = w := by
  cases m with
  | nil => intro s hs; cases hs
  | cons s0 rest =>
    intro s hs
    unfold forwardSweep at hs
    rcases List.mem_cons.mp hs with hs | hs
    · exact hs ▸ hw s0 (List.mem_cons_self _ _)
    · exact fwdAux_widths w s0 rest (hw s0 (List.mem_cons_self _ _))
        (fun t ht => hw t (List.mem_cons_of_mem _ ht)) s hs

theorem backwardSweep_widths (w : Nat) (m : List (List Nat))
    (hw : ∀ s ∈ m, s.length = w) : ∀ s ∈ backwardSweep m, s.length = w := by
  induction m with
  | nil => intro s hs; cases hs
  | cons x xs ih =>
    intro s hs
    have hx : x.length = w := hw x (List.mem_cons_self _ _)
    have hxs : ∀ t ∈ xs, t.length = w := fun t ht => hw t (List.mem_cons_of_mem _ ht)
    unfold backwardSweep at hs
    cases hbs : backwardSweep xs with
    | nil =>
      rw [hbs] at hs
      rcases List.mem_cons.mp hs with hs | hs
      · exact hs ▸ hx
      · cases hs
    | cons y ys =>
      rw [hbs] at hs
      have hy : y.length = w := ih hxs y (hbs ▸ List.mem_cons_self _ _)
      rcases List.mem_cons.mp hs with hs | hs
      · exact hs ▸ zipOr_length_of w x y hx hy
      · exact ih hxs s (hbs ▸ hs)

theorem nlor_zero (a : Nat) : Nat.lor a 0 = a := Nat.or_zero a

theorem nlor_self (a : Nat) : Nat.lor a a = a := Nat.or_self a

theorem nland_zero (a : Nat) : Nat.land a 0 = 0 := Nat.and_zero a

theorem nzero_land (a : Nat) : Nat.land 0 a = 0 := Nat.zero_and a

theorem nland_self (a : Nat) : Nat.land a a = a := Nat.and_self a

theorem nlor_assoc (a b c : Nat) :
    Nat.lor (Nat.lor a b) c = Nat.lor a (Nat.lor b c) := Nat.lor_assoc a b c

theorem orCol_nil : orCol [] = 0 := rfl

theorem orCol_cons (a : Nat) (l : List Nat) :
    orCol (a :: l) = Nat.lor a (orCol l) := rfl

theorem orCol_eq_zero (l : List Nat) : orCol l = 0 ↔ ∀ x ∈ l, x = 0 := by
  induction l with
  | nil =>
    constructor
    · intro _ x hx
      cases hx
    · intro _
      rfl
  | cons a l ih =>
    rw [orCol_cons, lor_eq_zero, ih]
    constructor
    · intro ⟨ha, hl⟩ x hx
      rcases List.mem_cons.mp hx with hx | hx
      · exact hx ▸ ha
      · exact hl x hx
    · intro h
      exact ⟨h a (List.mem_cons_self _ _), fun x hx => h x (List.mem_cons_of_mem _ hx)⟩

theorem orCol_ne_zero (l : List Nat) : orCol l ≠ 0 ↔ ∃ x ∈ l, x ≠ 0 := by
  rw [ne_eq, orCol_eq_zero]
  push_neg
  rfl

theorem orCol_binary (v : Nat) (l : List Nat) (h : ∀ x ∈ l, x = 0 ∨ x = v) :
    orCol l = 0 ∨ orCol l = v := by
  induction l with
  | nil => exact Or.inl rfl
  | cons a l ih =>
    rw [orCol_cons]
    rcases h a (List.mem_cons_self _ _) with ha | ha <;>
      rcases ih (fun x hx => h x (List.mem_cons_of_mem _ hx)) with hl | hl <;>
        rw [ha, hl]
    · exact Or.inl (nlor_zero 0)
    · exact Or.inr (Nat.zero_or v)
    · exact Or.inr (nlor_zero v)
    · exact Or.inr (nlor_self v)

theorem zipOr_getD (w : Nat) (a b : List Nat) (ha : a.length = w)
    (hb : b.length = w) (p : Nat) (hp : p < w) :
    (zipOr a b).getD p 0 = Nat.lor (a.getD p 0) (b.getD p 0) := by
  have hz : (zipOr a b).length = w := zipOr_length_of w a b ha hb
  rw [List.getD_eq_getElem _ _ (hp.trans_eq hz.symm),
    List.getD_eq_getElem _ _ (hp.trans_eq ha.symm),
    List.getD_eq_getElem _ _ (hp.trans_eq hb.symm)]
  exact List.getElem_zipWith

theorem zipAnd_getD (w : Nat) (a b : List Nat) (ha : a.length = w)
    (hb : b.length = w) (p : Nat) (hp : p < w) :
    (zipAnd a b).getD p 0 = Nat.land (a.getD p 0) (b.getD p 0) := by
  have hz : (zipAnd a b).length = w := by
    unfold zipAnd
    rw [List.length_zipWith, ha, hb, Nat.min_self]
  rw [List.getD_eq_getElem _ _ (hp.trans_eq hz.symm),
    List.getD_eq_getElem _ _ (hp.trans_eq ha.symm),
    List.getD_eq_getElem _ _ (hp.trans_eq hb.symm)]
  exact List.getElem_zipWith

theorem fwdAux_char (w p : Nat) (hp : p < w) (xs : List (List Nat)) :
    ∀ (acc : List Nat), acc.length = w → (∀ s ∈ xs, s.length = w) →
    ∀ i, i < xs.length →
    ((fwdAux acc xs).getD i []).getD p 0 =
      Nat.lor (acc.getD p 0) (orCol (colPix (xs.take (i + 1)) p)) := by
  induction xs with
  | nil =>
    intro acc _ _ i hi
    cases hi
  | cons x xs ih =>
    intro acc hacc hxs i hi
    have hxw : x.length = w := hxs x (List.mem_cons_self _ _)
    have hzw : (zipOr acc x).length = w := zipOr_length_of w acc x hacc hxw
    cases i with
    | zero =>
      show (zipOr acc x).getD p 0 = _
      rw [zipOr_getD w acc x hacc hxw p hp]
      rw [show colPix ((x :: xs).take 1) p = [x.getD p 0] from rfl,
        orCol_cons, orCol_nil, nlor_zero]
    | succ i =>
      show ((fwdAux (zipOr acc x) xs).getD i []).getD p 0 = _
      rw [ih (zipOr acc x) hzw (fun t ht => hxs t (List.mem_cons_of_mem _ ht)) i
        (by simpa using Nat.lt_of_succ_lt_succ hi)]
      rw [zipOr_getD w acc x hacc hxw p hp, nlor_assoc]
      rw [show colPix ((x :: xs).take (i + 2)) p =
        x.getD p 0 :: colPix (xs.take (i + 1)) p from rfl, orCol_cons]

theorem forwardSweep_char (w p : Nat) (hp : p < w) (m : List (List Nat))
    (hw : ∀ s ∈ m, s.length = w) : ∀ i, i < m.length →
    ((forwardSweep m).getD i []).getD p 0 = orCol (colPix (m.take (i + 1)) p) := by
  cases m with
  | nil =>
    intro i hi
    cases hi
  | cons s rest =>
    intro i hi
    cases i with
    | zero =>
      show s.getD p 0 = _
      rw [show colPix ((s :: rest).take 1) p = [s.getD p 0] from rfl,
        orCol_cons, orCol_nil, nlor_zero]
    | succ i =>
      show ((fwdAux s rest).getD i []).getD p 0 = _
      rw [fwdAux_char w p hp rest s (hw s (List.mem_cons_self _ _))
        (fun t ht => hw t (List.mem_cons_of_mem _ ht)) i
        (by simpa using Nat.lt_of_succ_lt_succ hi)]
      rw [show colPix ((s :: rest).take (i + 2)) p =
        s.getD p 0 :: colPix (rest.take (i + 1)) p from rfl, orCol_cons]

theorem backwardSweep_char (w p : Nat) (hp : p < w) (m : List (List Nat)) :
    (∀ s ∈ m, s.length = w) → ∀ i, i < m.length →
    ((backwardSweep m).getD i []).getD p 0 = orCol (colPix (m.drop i) p) := by
  induction m with
  | nil =>
    intro _ i hi
    cases hi
  | cons x xs ih =>
    intro hw i hi
    have hx : x.length = w := hw x (List.mem_cons_self _ _)
    have hxs : ∀ t ∈ xs, t.length = w := fun t ht => hw t (List.mem_cons_of_mem _ ht)
    by_cases hxs0 : xs = []
    · subst hxs0
      have hi0 : i = 0 := by
        simp only [List.length_cons, List.length_nil] at hi
        omega
      subst hi0
      show x.getD p 0 = _
      rw [show colPix (([x] : List (List Nat)).drop 0) p = [x.getD p 0] from rfl,
        orCol_cons, orCol_nil, nlor_zero]
    · have hxsne : xs.length ≠ 0 := fun h => hxs0 (List.length_eq_zero.mp h)
      obtain ⟨z, zs, hbs⟩ : ∃ z zs, backwardSweep xs = z :: zs := by
        cases hb : backwardSweep xs with
        | nil =>
          have := backwardSweep_length xs
          rw [hb] at this
          exact absurd this.symm hxsne
        | cons z zs => exact ⟨z, zs, rfl⟩
      have hzw : z.length = w :=
        backwardSweep_widths w xs hxs z (hbs ▸ List.mem_cons_self _ _)
      have hunf : backwardSweep (x :: xs) = zipOr x z :: z :: zs := by
        show (match backwardSweep xs with
          | [] => [x]
          | y :: ys => zipOr x y :: y :: ys) = _
        rw [hbs]
      rw [hunf]
      cases i with
      | zero =>
        show (zipOr x z).getD p 0 = _
        rw [zipOr_getD w x z hx hzw p hp]
        have hz0 : z.getD p 0 = orCol (colPix xs p) := by
          have h2 := ih hxs 0 (by omega)
          rw [hbs, List.drop_zero] at h2
          exact h2
        rw [hz0, List.drop_zero,
          show colPix (x :: xs) p = x.getD p 0 :: colPix xs p from rfl, orCol_cons]
      | succ i =>
        show ((z :: zs).getD i []).getD p 0 = _
        have hstep : (z :: zs).getD i [] = (backwardSweep xs).getD i [] := by
          rw [hbs]
        rw [hstep, ih hxs i (by simpa using Nat.lt_of_succ_lt_succ hi)]
        rfl

theorem reconstruct_length (m : List (List Nat)) :
    (reconstruct_gg_areas m).length = m.length := by
  unfold reconstruct_gg_areas
  rw [List.length_zipWith, forwardSweep_length, backwardSweep_length, Nat.min_self]

theorem reconstruct_pix (w : Nat) (m : List (List Nat))
    (hw : ∀ s ∈ m, s.length = w) (i p : Nat) (hi : i < m.length) (hp : p < w) :
    pix (reconstruct_gg_areas m) i p =
      Nat.land (orCol (colPix (m.take (i + 1)) p))
        (orCol (colPix (m.drop i) p)) := by
  have hfl := forwardSweep_length m
  have hbl := backwardSweep_length m
  have hfa : ((forwardSweep m).getD i []).length = w :=
    forwardSweep_widths w m hw _ (getD_mem_of_lt _ i (hi.trans_eq hfl.symm) _)
  have hba : ((backwardSweep m).getD i []).length = w :=
    backwardSweep_widths w m hw _ (getD_mem_of_lt _ i (hi.trans_eq hbl.symm) _)
  have hstep : (reconstruct_gg_areas m).getD i [] =
      zipAnd ((forwardSweep m).getD i []) ((backwardSweep m).getD i []) := by
    unfold reconstruct_gg_areas
    rw [List.getD_eq_getElem _ _ (show i < (List.zipWith zipAnd
      (forwardSweep m) (backwardSweep m)).length by
        rw [List.length_zipWith, hfl, hbl, Nat.min_self]; exact hi)]
    rw [List.getD_eq_getElem _ _ (hi.trans_eq hfl.symm),
      List.getD_eq_getElem _ _ (hi.trans_eq hbl.symm)]
    exact List.getElem_zipWith
  unfold pix
  rw [hstep, zipAnd_getD w _ _ hfa hba p hp,
    forwardSweep_char w p hp m hw i hi, backwardSweep_char w p hp m hw i hi]

theorem exists_mem_iff_getD {α : Type} (d : α) (l : List α) (pr : α → Prop) :
    (∃ x ∈ l, pr x) ↔ ∃ j, j < l.length ∧ pr (l.getD j d) := by
  constructor
  · intro ⟨x, hx, hpx⟩
    obtain ⟨j, hj, hx2⟩ := List.mem_iff_getElem.mp hx
    exact ⟨j, hj, by rw [List.getD_eq_getElem _ _ hj, hx2]; exact hpx⟩
  · intro ⟨j, hj, h⟩
    exact ⟨l.getD j d, getD_mem_of_lt l j hj d, h⟩

theorem colPix_length (m : List (List Nat)) (p : Nat) :
    (colPix m p).length = m.length := List.length_map _ _

theorem colPix_getD (m : List (List Nat)) (p j : Nat) (hj : j < m.length) :
    (colPix m p).getD j 0 = (m.getD j []).getD p 0 :=
  getD_map_of_lt _ m j hj 0 []

theorem take_getD (m : List (List Nat)) (i j : Nat) (hj : j < (m.take i).length) :
    (m.take i).getD j [] = m.getD j [] := by
  have hjl : j < m.length := by
    rw [List.length_take] at hj
    omega
  rw [List.getD_eq_getElem _ _ hj, List.getD_eq_getElem _ _ hjl]
  exact List.getElem_take m

theorem drop_getD (m : List (List Nat)) (i j : Nat) (hj : j < (m.drop i).length) :
    (m.drop i).getD j [] = m.getD (i + j) [] := by
  have hjl : i + j < m.length := by
    rw [List.length_drop] at hj
    omega
  rw [List.getD_eq_getElem _ _ hj, List.getD_eq_getElem _ _ hjl]
  exact List.getElem_drop m

theorem orCol_take_ne_zero (m : List (List Nat)) (i p : Nat) (hi : i < m.length) :
    orCol (colPix (m.take (i + 1)) p) ≠ 0 ↔ ∃ j, j ≤ i ∧ pix m j p ≠ 0 := by
  rw [orCol_ne_zero, exists_mem_iff_getD 0]
  constructor
  · intro ⟨j, hj, hne⟩
    rw [colPix_length] at hj
    rw [colPix_getD _ _ _ hj, take_getD m (i + 1) j hj] at hne
    have hji : j ≤ i := by
      rw [List.length_take] at hj
      omega
    exact ⟨j, hji, hne⟩
  · intro ⟨j, hji, hne⟩
    have hjt : j < (m.take (i + 1)).length := by
      rw [List.length_take]
      omega
    refine ⟨j, by rw [colPix_length]; exact hjt, ?_⟩
    rw [colPix_getD _ _ _ hjt, take_getD m (i + 1) j hjt]
    exact hne

theorem orCol_drop_ne_zero (m : List (List Nat)) (i p : Nat) :
    orCol (colPix (m.drop i) p) ≠ 0 ↔
      ∃ j, i ≤ j ∧ j < m.length ∧ pix m j p ≠ 0 := by
  rw [orCol_ne_zero, exists_mem_iff_getD 0]
  constructor
  · intro ⟨j, hj, hne⟩
    rw [colPix_length] at hj
    rw [colPix_getD _ _ _ hj, drop_getD m i j hj] at hne
    have hjl : i + j < m.length := by
      rw [List.length_drop] at hj
      omega
    exact ⟨i + j, Nat.le_add_right i j, hjl, hne⟩
  · intro ⟨j, hij, hjm, hne⟩
    have hjd : j - i < (m.drop i).length := by
      rw [List.length_drop]
      omega
    refine ⟨j - i, by rw [colPix_length]; exact hjd, ?_⟩
    rw [colPix_getD _ _ _ hjd, drop_getD m i (j - i) hjd,
      show i + (j - i) = j by omega]
    exact hne

theorem colPix_binary (v w : Nat) (m : List (List Nat))
    (hw : ∀ s ∈ m, s.length = w)
    (hbin : ∀ s ∈ m, ∀ x ∈ s, x = 0 ∨ x = v) (p : Nat) (hp : p < w)
    (sub : List (List Nat)) (hsub : ∀ s ∈ sub, s ∈ m) :
    ∀ x ∈ colPix sub p, x = 0 ∨ x = v := by
  intro x hx
  obtain ⟨s, hs, hsx⟩ := List.mem_map.mp hx
  have hsm := hsub s hs
  have hsw : s.length = w := hw s hsm
  have hmem : s.getD p 0 ∈ s := by
    rw [List.getD_eq_getElem _ _ (hp.trans_eq hsw.symm)]
    exact List.getElem_mem _
  exact hsx ▸ hbin s hsm _ hmem

theorem land_binary_ne_zero (v : Nat) (hv : v ≠ 0) (a b : Nat)
    (ha : a = 0 ∨ a = v) (hb : b = 0 ∨ b = v) :
    Nat.land a b ≠ 0 ↔ (a ≠ 0 ∧ b ≠ 0) := by
  rcases ha with ha | ha <;> rcases hb with hb | hb <;> subst ha <;> subst hb
  · rw [nzero_land]
    simp
  · rw [nzero_land]
    simp
  · rw [nland_zero]
    simp
  · rw [nland_self]
    constructor
    · intro h
      exact ⟨h, h⟩
    · intro h
      exact h.1

/-- C2: on a binary mask volume of uniform slice width, a reconstructed
pixel is foreground exactly when some slice at or before i and some slice
at or after i are foreground at that pixel: the forward sweep ORs each
slice with its already-updated predecessor, the backward sweep does the
symmetric OR from the end, and the final slice is the AND of the two. -/
theorem reconstruct_gg_areas_char (mask : List (List Nat)) (w v : Nat)
    (hw : ∀ s ∈ mask, s.length = w) (hv : v ≠ 0)
    (hbin : ∀ s ∈ mask, ∀ x ∈ s, x = 0 ∨ x = v)
    (i p : Nat) (hi : i < mask.length) (hp : p < w) :
    pix (reconstruct_gg_areas mask) i p ≠ 0 ↔
      ((∃ j, j ≤ i ∧ pix mask j p ≠ 0) ∧
        (∃ j, i ≤ j ∧ j < mask.length ∧ pix mask j p ≠ 0)) := by
  rw [reconstruct_pix w mask hw i p hi hp]
  have hA : orCol (colPix (mask.take (i + 1)) p) = 0 ∨
      orCol (colPix (mask.take (i + 1)) p) = v :=
    orCol_binary v _ (colPix_binary v w mask hw hbin p hp _ (List.take_subset _ _))
  have hB : orCol (colPix (mask.drop i) p) = 0 ∨
      orCol (colPix (mask.drop i) p) = v :=
    orCol_binary v _ (colPix_binary v w mask hw hbin p hp _ (List.drop_subset _ _))
  rw [land_binary_ne_zero v hv _ _ hA hB, orCol_take_ne_zero mask i p hi,
    orCol_drop_ne_zero mask i p]

/-- Witness for C2: the volume [[255], [0], [255]] with the middle slice
missing; at slice 1 the characterization applies. -/
theorem reconstruct_gg_areas_char_witness :
    (∀ s ∈ ([[255], [0], [255]] : List (List Nat)), s.length = 1) ∧
    (255 : Nat) ≠ 0 ∧
    (∀ s ∈ ([[255], [0], [255]] : List (List Nat)), ∀ x ∈ s, x = 0 ∨ x = 255) ∧
    1 < ([[255], [0], [255]] : List (List Nat)).length ∧ 0 < 1 ∧
    (pix (reconstruct_gg_areas [[255], [0], [255]]) 1 0 ≠ 0 ↔
      ((∃ j, j ≤ 1 ∧ pix [[255], [0], [255]] j 0 ≠ 0) ∧
        (∃ j, 1 ≤ j ∧ j < ([[255], [0], [255]] : List (List Nat)).length ∧
          pix [[255], [0], [255]] j 0 ≠ 0))) :=
  ⟨by decide, by decide, by decide, by decide, by decide,
    reconstruct_gg_areas_char [[255], [0], [255]] 1 255 (by decide) (by decide)
      (by decide) 1 0 (by decide) (by decide)⟩

theorem pix_binary (v w : Nat) (m : List (List Nat))
    (hw : ∀ s ∈ m, s.length = w)
    (hbin : ∀ s ∈ m, ∀ x ∈ s, x = 0 ∨ x = v) (i p : Nat)
    (hi : i < m.length) (hp : p < w) : pix m i p = 0 ∨ pix m i p = v := by
  have hsm : m.getD i [] ∈ m := getD_mem_of_lt m i hi []
  have hsw : (m.getD i []).length = w := hw _ hsm
  have hmem : (m.getD i []).getD p 0 ∈ m.getD i [] := by
    rw [List.getD_eq_getElem _ _ (hp.trans_eq hsw.symm)]
    exact List.getElem_mem _
  exact hbin _ hsm _ hmem

theorem reconstruct_pix_fixed (mask : List (List Nat)) (w v : Nat)
    (hw : ∀ s ∈ mask, s.length = w) (hv : v ≠ 0)
    (hbin : ∀ s ∈ mask, ∀ x ∈ s, x = 0 ∨ x = v)
    (hcont : ∀ p, p < w → ∀ j k j2, j ≤ k → k ≤ j2 →
      pix mask j p ≠ 0 → pix mask j2 p ≠ 0 → pix mask k p ≠ 0)
    (i p : Nat) (hi : i < mask.length) (hp : p < w) :
    pix (reconstruct_gg_areas mask) i p = pix mask i p := by
  rw [reconstruct_pix w mask hw i p hi hp]
  have hA : orCol (colPix (mask.take (i + 1)) p) = 0 ∨
      orCol (colPix (mask.take (i + 1)) p) = v :=
    orCol_binary v _ (colPix_binary v w mask hw hbin p hp _ (List.take_subset _ _))
  have hB : orCol (colPix (mask.drop i) p) = 0 ∨
      orCol (colPix (mask.drop i) p) = v :=
    orCol_binary v _ (colPix_binary v w mask hw hbin p hp _ (List.drop_subset _ _))
  rcases pix_binary v w mask hw hbin i p hi hp with h0 | h0
  · rw [h0]
    by_contra hne
    have hab := (land_binary_ne_zero v hv _ _ hA hB).mp hne
    obtain ⟨j, hji, hjne⟩ := (orCol_take_ne_zero mask i p hi).mp hab.1
    obtain ⟨j2, hij2, hj2m, hj2ne⟩ := (orCol_drop_ne_zero mask i p).mp hab.2
    exact hcont p hp j i j2 hji hij2 hjne hj2ne h0
  · have ha : orCol (colPix (mask.take (i + 1)) p) ≠ 0 :=
      (orCol_take_ne_zero mask i p hi).mpr ⟨i, le_refl i, by rw [h0]; exact hv⟩
    have hb : orCol (colPix (mask.drop i) p) ≠ 0 :=
      (orCol_drop_ne_zero mask i p).mpr ⟨i, le_refl i, hi, by rw [h0]; exact hv⟩
    rw [hA.resolve_left ha, hB.resolve_left hb, nland_self, h0]

theorem reconstruct_getD (m : List (List Nat)) (i : Nat) (hi : i < m.length) :
    (reconstruct_gg_areas m).getD i [] =
      zipAnd ((forwardSweep m).getD i []) ((backwardSweep m).getD i []) := by
  unfold reconstruct_gg_areas
  rw [List.getD_eq_getElem _ _ (show i < (List.zipWith zipAnd
    (forwardSweep m) (backwardSweep m)).length by
      rw [List.length_zipWith, forwardSweep_length, backwardSweep_length,
        Nat.min_self]
      exact hi)]
  rw [List.getD_eq_getElem _ _ (hi.trans_eq (forwardSweep_length m).symm),
    List.getD_eq_getElem _ _ (hi.trans_eq (backwardSweep_length m).symm)]
  exact List.getElem_zipWith

theorem reconstruct_widths (w : Nat) (m : List (List Nat))
    (hw : ∀ s ∈ m, s.length = w) :
    ∀ s ∈ reconstruct_gg_areas m, s.length = w := by
  intro s hs
  obtain ⟨i, hil, hieq⟩ := List.mem_iff_getElem.mp hs
  rw [reconstruct_length] at hil
  have h2 : (reconstruct_gg_areas m).getD i [] = s := by
    rw [List.getD_eq_getElem _ _ (hil.trans_eq (reconstruct_length m).symm)]
    exact hieq
  rw [← h2, reconstruct_getD m i hil]
  have hfa : ((forwardSweep m).getD i []).length = w :=
    forwardSweep_widths w m hw _
      (getD_mem_of_lt _ i (hil.trans_eq (forwardSweep_length m).symm) _)
  have hba : ((backwardSweep m).getD i []).length = w :=
    backwardSweep_widths w m hw _
      (getD_mem_of_lt _ i (hil.trans_eq (backwardSweep_length m).symm) _)
  unfold zipAnd
  rw [List.length_zipWith, hfa, hba, Nat.min_self]

/-- C7: a binary volume whose foreground support is contiguous along the
slice axis in every pixel column is a fixed point of reconstruct_gg_areas. -/
theorem reconstruct_gg_areas_fixed_point (mask : List (List Nat)) (w v : Nat)
    (hw : ∀ s ∈ mask, s.length = w) (hv : v ≠ 0)
    (hbin : ∀ s ∈ mask, ∀ x ∈ s, x = 0 ∨ x = v)
    (hcont : ∀ p, p < w → ∀ j k j2, j ≤ k → k ≤ j2 →
      pix mask j p ≠ 0 → pix mask j2 p ≠ 0 → pix mask k p ≠ 0) :
    reconstruct_gg_areas mask = mask := by
  apply List.ext_getElem (reconstruct_length mask)
  intro i h1 h2
  have hil : i < mask.length := h2
  have hrw : (reconstruct_gg_areas mask)[i].length = w := by
    apply reconstruct_widths w mask hw
    exact List.getElem_mem _
  have hmw : mask[i].length = w := hw _ (List.getElem_mem _)
  apply List.ext_getElem (by rw [hrw, hmw])
  intro p hp1 hp2
  have hpw : p < w := hp1.trans_eq hrw
  have hfix := reconstruct_pix_fixed mask w v hw hv hbin hcont i p hil hpw
  unfold pix at hfix
  rw [List.getD_eq_getElem _ _ (hil.trans_eq (reconstruct_length mask).symm),
    List.getD_eq_getElem _ _ hil] at hfix
  rw [List.getD_eq_getElem _ _ (hpw.trans_eq hrw.symm),
    List.getD_eq_getElem _ _ (hpw.trans_eq hmw.symm)] at hfix
  exact hfix

/-- Witness for C7: the single-slice volume [[5]] has contiguous support
and is returned unchanged. -/
theorem reconstruct_gg_areas_fixed_point_witness :
    (∀ s ∈ ([[5]] : List (List Nat)), s.length = 1) ∧
    (5 : Nat) ≠ 0 ∧
    (∀ s ∈ ([[5]] : List (List Nat)), ∀ x ∈ s, x = 0 ∨ x = 5) ∧
    (∀ p, p < 1 → ∀ j k j2, j ≤ k → k ≤ j2 →
      pix [[5]] j p ≠ 0 → pix [[5]] j2 p ≠ 0 → pix [[5]] k p ≠ 0) ∧
    reconstruct_gg_areas [[5]] = [[5]] := by
  have hcont : ∀ p, p < 1 → ∀ j k j2, j ≤ k → k ≤ j2 →
      pix [[5]] j p ≠ 0 → pix [[5]] j2 p ≠ 0 → pix [[5]] k p ≠ 0 := by
    intro p hp j k j2 hjk hkj2 hj hj2
    have hp0 : p = 0 := by omega
    subst hp0
    have hj2b : j2 < 1 := by
      by_contra hge
      push_neg at hge
      have hd : ([[5]] : List (List Nat)).getD j2 [] = [] :=
        List.getD_eq_default _ _ (by simpa using hge)
      have : pix [[5]] j2 0 = 0 := by
        unfold pix
        rw [hd]
        rfl
      exact hj2 this
    have hk0 : k = 0 := by omega
    subst hk0
    decide
  exact ⟨by decide, by decide, by decide, hcont,
    reconstruct_gg_areas_fixed_point [[5]] 1 5 (by decide) (by decide)
      (by decide) hcont⟩

/-- C8: the forward-swept, backward-swept and final reconstructed volumes
all have the shape of the input (same slice count, same slice width); the
input itself is untouched, the embedding being a pure function of it just
as the code only writes to mask.copy() buffers. -/
theorem reconstruct_gg_areas_shape (mask : List (List Nat)) (w : Nat)
    (hw : ∀ s ∈ mask, s.length = w) :
    (forwardSweep mask).length = mask.length ∧
    (backwardSweep mask).length = mask.length ∧
    (reconstruct_gg_areas mask).length = mask.length ∧
    (∀ s ∈ forwardSweep mask, s.length = w) ∧
    (∀ s ∈ backwardSweep mask, s.length = w) ∧
    (∀ s ∈ reconstruct_gg_areas mask, s.length = w) :=
  ⟨forwardSweep_length mask, backwardSweep_length mask, reconstruct_length mask,
    forwardSweep_widths w mask hw, backwardSweep_widths w mask hw,
    reconstruct_widths w mask hw⟩

/-- Witness for C8: shapes are preserved on a concrete 2-slice volume of
width 2. -/
theorem reconstruct_gg_areas_shape_witness :
    (∀ s ∈ ([[1, 2], [3, 4]] : List (List Nat)), s.length = 2) ∧
    (forwardSweep [[1, 2], [3, 4]]).length =
      ([[1, 2], [3, 4]] : List (List Nat)).length ∧
    (backwardSweep [[1, 2], [3, 4]]).length =
      ([[1, 2], [3, 4]] : List (List Nat)).length ∧
    (reconstruct_gg_areas [[1, 2], [3, 4]]).length =
      ([[1, 2], [3, 4]] : List (List Nat)).length ∧
    (∀ s ∈ forwardSweep [[1, 2], [3, 4]], s.length = 2) ∧
    (∀ s ∈ backwardSweep [[1, 2], [3, 4]], s.length = 2) ∧
    (∀ s ∈ reconstruct_gg_areas [[1, 2], [3, 4]], s.length = 2) :=
  ⟨by decide, reconstruct_gg_areas_shape [[1, 2], [3, 4]] 2 (by decide)⟩

end CTLungSeg
